import Mathlib

/-!
Verification of the adaptive story generator (`AIp_gui.py`).

The Python program is shallowly embedded below.  Randomness is made
explicit: every call to the process-wide random source is modelled by an
extra argument carrying the raw draw (`u : Nat` for `random.randint` /
`random.choice` indices, `Bool` for the `random.random() < p` coin,
`Real` in `[0,1]` for `random.uniform`), so "for every outcome of the
random source" becomes a universal quantifier over those arguments.
Python ints are `Int`/`Nat`; Python float arithmetic in the scorer is
modelled by exact real arithmetic; the layout arithmetic is modelled by
exact rational arithmetic.  Dictionary access that can raise `KeyError`
is modelled with `Option` (`none` = the exception).
-/

/-- Attribute triple attached to a node (`{"emotion": .., "risk": .., "reward": ..}`). -/
structure Attrs where
  emotion : Int
  risk : Int
  reward : Int
deriving DecidableEq, Repr

/-- Per-node data held by the networkx node dictionary.  A node created by
`add_node(n, text=.., attributes=..)` has both fields; a node implicitly
created by `add_edge` has neither. -/
structure NodeData where
  text : Option String
  attrs : Option Attrs
deriving DecidableEq, Repr

/-- The `networkx.DiGraph`: insertion-ordered node dictionary and edge list.
`DiGraph` has no parallel edges, so `add_edge` is deduplicating. -/
structure DiGraph where
  nodes : List (String × NodeData)
  edges : List (String × String)
deriving DecidableEq, Repr

/-- First-match association-list lookup (Python dict access / `in` test). -/
def alookup {β : Type} (n : String) : List (String × β) → Option β
  | [] => none
  | p :: ps => if p.1 = n then some p.2 else alookup n ps

/-- `G.nodes[node]` as an `Option` (`none` models the `KeyError`). -/
def nodeData (g : DiGraph) (node : String) : Option NodeData :=
  alookup node g.nodes

/-- Whether a node id is present in the graph (`node in G`). -/
def hasNode (g : DiGraph) (node : String) : Bool :=
  (nodeData g node).isSome

/-- `G.add_node(n, ...)`: insert, or overwrite the stored data if present. -/
def add_node (g : DiGraph) (n : String) (d : NodeData) : DiGraph :=
  if hasNode g n then
    { g with nodes := g.nodes.map (fun p => if p.1 = n then (n, d) else p) }
  else
    { g with nodes := g.nodes ++ [(n, d)] }

/-- `G.has_edge(a, b)`. -/
def has_edge (g : DiGraph) (a b : String) : Bool :=
  (a, b) ∈ g.edges

/-- `G.add_edge(a, b)`: create missing endpoints (with empty data, as
networkx does), then add the edge unless already present. -/
def add_edge (g : DiGraph) (a b : String) : DiGraph :=
  let g1 := if hasNode g a then g else { g with nodes := g.nodes ++ [(a, ⟨none, none⟩)] }
  let g2 := if hasNode g1 b then g1 else { g1 with nodes := g1.nodes ++ [(b, ⟨none, none⟩)] }
  if has_edge g2 a b then g2 else { g2 with edges := g2.edges ++ [(a, b)] }

/-- `list(G.successors(n))`: targets of the edges out of `n`, in edge
insertion order (networkx adjacency order). -/
def successors (g : DiGraph) (n : String) : List String :=
  (g.edges.filter (fun e => e.1 = n)).map Prod.snd

/-- `AdaptiveStoryGraph.get_node_attributes`:
`self.G.nodes[node].get("attributes", {"emotion":5,"risk":2,"reward":2})`. -/
def get_node_attributes (g : DiGraph) (node : String) : Option Attrs :=
  (nodeData g node).map (fun d => d.attrs.getD ⟨5, 2, 2⟩)

/-- Model of `random.randint(a, b)`: the raw draw `u` is reduced into the
inclusive range `[a, b]` (integer version, used for attribute values). -/
def randint (a b : Int) (u : Nat) : Int :=
  a + (u : Int) % (b - a + 1)

/-- Model of `random.randint(a, b)` where the result is used as a count. -/
def randintNat (a b : Nat) (u : Nat) : Nat :=
  a + u % (b - a + 1)

/-- Model of `random.choice(l)`: the raw draw selects an index. -/
def choiceFrom (l : List String) (u : Nat) : String :=
  l.getD (u % l.length) ""

/-- `AdaptiveStoryGraph.random_attributes`:
emotion `randint(1,10)`, risk `randint(0,5)`, reward `randint(0,5)`. -/
def random_attributes (u1 u2 u3 : Nat) : Attrs :=
  { emotion := randint 1 10 u1, risk := randint 0 5 u2, reward := randint 0 5 u3 }

/-- The fixed opening lines of `compose_text_for_node`. -/
def openings : List String :=
  [ "You sense something unusual.",
    "A chill runs down your spine.",
    "The air feels charged with possibility.",
    "You spot a glimmer of something valuable.",
    "A figure appears and gestures toward you." ]

/-- The fixed ending lines of `compose_text_for_node`. -/
def ending_lines : List String :=
  [ "You find peace and safety at last.",
    "You uncover the hidden truth of your journey.",
    "You vanish into the unknown, your fate sealed.",
    "You escape the danger, but the memory lingers.",
    "You realize this was only the beginning..." ]

/-- The attribute readout suffix `f" (emotion {e}, risk {r}, reward {w})"`. -/
def detailOf (a : Attrs) : String :=
  " (emotion " ++ toString a.emotion ++ ", risk " ++ toString a.risk ++
    ", reward " ++ toString a.reward ++ ")"

/-- `AdaptiveStoryGraph.compose_text_for_node`.  `u1` is the draw for
`random.choice(openings)` (always performed), `u2` the draw for
`random.choice(ending_lines)` (consumed only on the ending branch). -/
def compose_text_for_node (node_name : String) (a : Attrs) (ending : Bool)
    (u1 u2 : Nat) : String :=
  let _ := node_name
  let base := choiceFrom openings u1
  let detail := detailOf a
  if ending then choiceFrom ending_lines u2 ++ detail
  else
    let tone := if a.emotion ≥ 8 then " Your heart races; the scene feels intense."
      else if a.emotion ≤ 3 then " A calm settles in, but something is off."
      else ""
    let tone := if a.risk ≥ 4 then tone ++ " Danger seems imminent."
      else if a.reward ≥ 4 then tone ++ " This could be a big opportunity."
      else tone
    base ++ tone ++ detail

/-- The tone modifiers as the specification words them: an "intense" phrase
iff `emotion ≥ 8`, else a "calm but off" phrase iff `emotion ≤ 3`;
independently a "danger imminent" phrase iff `risk ≥ 4`, else an
"opportunity" phrase iff `reward ≥ 4` (risk check first). -/
def toneSpec (a : Attrs) : String :=
  (if a.emotion ≥ 8 then " Your heart races; the scene feels intense."
    else if a.emotion ≤ 3 then " A calm settles in, but something is off."
    else "") ++
  (if a.risk ≥ 4 then " Danger seems imminent."
    else if a.reward ≥ 4 then " This could be a big opportunity."
    else "")

/-- One value of the `stats` map: `{"visits": .., "observed_reward": ..}`. -/
structure Stat where
  visits : Nat
  observed_reward : Int
deriving DecidableEq, Repr

/-- The persisted player state (`story_data` plus the history stack):
`{"current_node", "visited", "history", "stats"}`.  `history` is oldest
first, most recent last (Python appends/pops at the end). -/
structure StoryData where
  current_node : String
  visited : List String
  history : List String
  stats : List (String × Stat)
deriving DecidableEq, Repr

/-- Replace the value of the first entry with the given key
(mutation of the dict value obtained by `setdefault`). -/
def updateFirst (f : Stat → Stat) (n : String) : List (String × Stat) → List (String × Stat)
  | [] => []
  | p :: ps => if p.1 = n then (p.1, f p.2) :: ps else p :: updateFirst f n ps

/-- `stats.setdefault(node, {"visits": 0, "observed_reward": 0})` followed by
`node_stat["visits"] += 1; node_stat["observed_reward"] += observed`. -/
def bumpStat (stats : List (String × Stat)) (node : String) (observed : Int) :
    List (String × Stat) :=
  match alookup node stats with
  | none => stats ++ [(node, ⟨1, observed⟩)]
  | some _ => updateFirst (fun st => ⟨st.visits + 1, st.observed_reward + observed⟩) node stats

/-- `StoryApp.next_node`: push the current node on the history, move to
`node`, record it as visited if new, and accumulate its static reward in
the stats.  `none` models the `KeyError` that
`get_node_attributes` raises when `node` is not in the graph.  Note that
the source performs no check that `node` is a successor of the current
node: the transition is applied unconditionally. -/
def next_node (g : DiGraph) (s : StoryData) (node : String) : Option StoryData :=
  (get_node_attributes g node).map (fun attrs =>
    { current_node := node
      visited := if node ∈ s.visited then s.visited else s.visited ++ [node]
      history := s.history ++ [s.current_node]
      stats := bumpStat s.stats node attrs.reward })

/-- The message shown by `go_back` when the history stack is empty. -/
def backMsg : String := "You are already at the beginning!"

/-- `StoryApp.go_back`: pop the most recent history entry and return to it;
on an empty history, leave the state unchanged and return the
informational message instead. -/
def go_back (s : StoryData) : StoryData × Option String :=
  match s.history.getLast? with
  | none => (s, some backMsg)
  | some prev => ({ s with current_node := prev, history := s.history.dropLast }, none)

/-- The state after `go_back`, for iterating. -/
def goBackState (s : StoryData) : StoryData := (go_back s).1

/-- A sequence of `next_node` calls; `none` as soon as one raises. -/
def foldTransitions (g : DiGraph) (s : StoryData) (ns : List String) : Option StoryData :=
  ns.foldl (fun os n => os.bind (fun t => next_node g t n)) (some s)

/-- `stats[n].visits`, `0` when the entry is absent. -/
def statVisits (s : StoryData) (n : String) : Nat :=
  ((alookup n s.stats).map Stat.visits).getD 0

/-- `stats[n].observed_reward`, `0` when the entry is absent. -/
def statObserved (s : StoryData) (n : String) : Int :=
  ((alookup n s.stats).map Stat.observed_reward).getD 0

/-- The static reward credited by `next_node` when moving to `n`
(the node's `reward` attribute, through the default fallback). -/
def rewardOf (g : DiGraph) (n : String) : Int :=
  ((get_node_attributes g n).map Attrs.reward).getD 0

/-- The five themes drawn by `random.choice` in `AdaptiveStoryGraph.__init__`. -/
def themes : List String := ["mystery", "adventure", "sci-fi", "fantasy", "survival"]

/-- The `start_texts` dictionary of `generate_story`. -/
def start_texts : List (String × String) :=
  [ ("mystery", "You wake up in a foggy town with no memory of who you are."),
    ("adventure", "You find a dusty map leading to a hidden island."),
    ("sci-fi", "You regain consciousness in a deserted space station orbiting Earth."),
    ("fantasy", "You awaken in an enchanted forest filled with glowing runes."),
    ("survival", "You wake up after a plane crash in a wild jungle.") ]

/-- Raw draws consumed for one secondary node (`m = f"{n}_path{j}"`) and its
optional ending child. -/
structure SecDraw where
  a1 : Nat
  a2 : Nat
  a3 : Nat
  openIdx : Nat
  endCoin : Bool
  e1 : Nat
  e2 : Nat
  e3 : Nat
  endOpenIdx : Nat
  endLineIdx : Nat

/-- Raw draws consumed for one primary branch (`n = f"choice_{i}"`). -/
structure BranchDraw where
  a1 : Nat
  a2 : Nat
  a3 : Nat
  openIdx : Nat
  secCountRaw : Nat
  sec : Nat → SecDraw

/-- All raw draws consumed by one run of `generate_story` (plus the theme
draw of `__init__`).  Modelling the draws as functions of the loop indices
lets a single value cover loops of any admissible length. -/
structure GenDraw where
  themeIdx : Nat
  s1 : Nat
  s2 : Nat
  s3 : Nat
  numBranchesRaw : Nat
  branch : Nat → BranchDraw
  crossCountRaw : Nat
  crossA : Nat → Nat
  crossB : Nat → Nat

/-- Body of the secondary-branch loop (`for j in range(random.randint(1, 3))`). -/
def genSecondary (n : String) (bd : BranchDraw) (g : DiGraph) (j : Nat) : DiGraph :=
  let sj := bd.sec j
  let m := n ++ "_path" ++ toString j
  let attrs_m := random_attributes sj.a1 sj.a2 sj.a3
  let g := add_node g m ⟨some (compose_text_for_node m attrs_m false sj.openIdx 0), some attrs_m⟩
  let g := add_edge g n m
  if sj.endCoin then
    let e := m ++ "_end"
    let attrs_e := random_attributes sj.e1 sj.e2 sj.e3
    let g := add_node g e
      ⟨some (compose_text_for_node e attrs_e true sj.endOpenIdx sj.endLineIdx), some attrs_e⟩
    add_edge g m e
  else g

/-- Body of the primary-branch loop (`for i in range(1, num_branches + 1)`);
`i` here is the zero-based loop counter, the node is `choice_{i+1}`. -/
def genBranch (o : GenDraw) (g : DiGraph) (i : Nat) : DiGraph :=
  let bd := o.branch i
  let n := "choice_" ++ toString (i + 1)
  let attrs := random_attributes bd.a1 bd.a2 bd.a3
  let g := add_node g n ⟨some (compose_text_for_node n attrs false bd.openIdx 0), some attrs⟩
  let g := add_edge g "start" n
  let secCount := randintNat 1 3 bd.secCountRaw
  (List.range secCount).foldl (genSecondary n bd) g

/-- Body of the cross-link loop: `a, b = random.sample(nodes, 2)` (two
distinct positions of the node list) and the guarded `add_edge`. -/
def genCross (nodes : List String) (o : GenDraw) (g : DiGraph) (k : Nat) : DiGraph :=
  let ia := o.crossA k % nodes.length
  let a := nodes.getD ia ""
  let rest := nodes.eraseIdx ia
  let b := rest.getD (o.crossB k % rest.length) ""
  if a ≠ "start" ∧ b ≠ "start" ∧ a ≠ b ∧ ¬ has_edge g a b then add_edge g a b else g

/-- `AdaptiveStoryGraph.generate_story` (together with the theme draw of
`__init__`), over an explicit outcome of the random source. -/
def generate_story (o : GenDraw) : DiGraph :=
  let theme := choiceFrom themes o.themeIdx
  let g : DiGraph := ⟨[], []⟩
  let g := add_node g "start"
    ⟨some ((alookup theme start_texts).getD ""), some (random_attributes o.s1 o.s2 o.s3)⟩
  let num_branches := randintNat 3 6 o.numBranchesRaw
  let g := (List.range num_branches).foldl (genBranch o) g
  let nodes := g.nodes.map Prod.fst
  let cross := randintNat 3 6 o.crossCountRaw
  (List.range cross).foldl (genCross nodes o) g

/-- Number of edges into `n` (`G.in_degree(n)`). -/
def in_degree (g : DiGraph) (n : String) : Nat :=
  (g.edges.filter (fun e => e.2 = n)).length

/-- Number of edges out of `n` (`G.out_degree(n)`). -/
def out_degree (g : DiGraph) (n : String) : Nat :=
  (successors g n).length

/-! ### Association-list lemmas -/

theorem alookup_append_left {b : Type} {l1 l2 : List (String × b)} {n : String} {x : b}
    (h : alookup n l1 = some x) : alookup n (l1 ++ l2) = some x := by
  induction l1 with
  | nil => simp [alookup] at h
  | cons p ps ih =>
    by_cases hp : p.1 = n
    · simp only [alookup, List.cons_append, if_pos hp] at h ⊢; exact h
    · simp only [alookup, List.cons_append, if_neg hp] at h ⊢; exact ih h

theorem alookup_append_right {b : Type} {l1 : List (String × b)} {n : String}
    (h : alookup n l1 = none) (l2 : List (String × b)) :
    alookup n (l1 ++ l2) = alookup n l2 := by
  induction l1 with
  | nil => simp
  | cons p ps ih =>
    by_cases hp : p.1 = n
    · rw [alookup, if_pos hp] at h; exact absurd h (by simp)
    · simp only [alookup, List.cons_append, if_neg hp] at h ⊢; exact ih h

theorem alookup_eq_none {b : Type} {l : List (String × b)} {n : String} :
    alookup n l = none ↔ n ∉ l.map Prod.fst := by
  induction l with
  | nil => simp [alookup]
  | cons p ps ih =>
    by_cases hp : p.1 = n
    · simp [alookup, hp]
    · rw [alookup, if_neg hp, ih]
      simp only [List.map_cons, List.mem_cons]
      constructor
      · intro h hc
        rcases hc with h1 | h2
        · exact hp h1.symm
        · exact h h2
      · exact fun h hc => h (Or.inr hc)

theorem mem_of_alookup {b : Type} {l : List (String × b)} {n : String} {x : b}
    (h : alookup n l = some x) : (n, x) ∈ l := by
  induction l with
  | nil => simp [alookup] at h
  | cons p ps ih =>
    obtain ⟨a, v⟩ := p
    simp only [alookup] at h
    by_cases hp : a = n
    · rw [if_pos hp] at h
      have hv : v = x := by simpa using h
      subst hp; subst hv
      exact List.mem_cons_self _ _
    · rw [if_neg hp] at h
      exact List.mem_cons_of_mem _ (ih h)

theorem alookup_isSome {b : Type} {l : List (String × b)} {n : String} :
    (alookup n l).isSome = true ↔ n ∈ l.map Prod.fst := by
  rw [← Option.ne_none_iff_isSome, Ne, alookup_eq_none, not_not]

/-! ### C6: attribute bounds -/

/-- The bounds the specification states for an attribute triple. -/
def attrsInRange (a : Attrs) : Prop :=
  1 ≤ a.emotion ∧ a.emotion ≤ 10 ∧ 0 ≤ a.risk ∧ a.risk ≤ 5 ∧ 0 ≤ a.reward ∧ a.reward ≤ 5

theorem randint_mem {a b : Int} (u : Nat) (hab : a ≤ b) :
    a ≤ randint a b u ∧ randint a b u ≤ b := by
  unfold randint
  have hpos : (0 : Int) < b - a + 1 := by omega
  have h1 := Int.emod_nonneg (u : Int) (by omega : b - a + 1 ≠ 0)
  have h2 := Int.emod_lt_of_pos (u : Int) hpos
  omega

theorem random_attributes_inRange (u1 u2 u3 : Nat) :
    attrsInRange (random_attributes u1 u2 u3) := by
  have h1 := randint_mem (a := 1) (b := 10) u1 (by omega)
  have h2 := randint_mem (a := 0) (b := 5) u2 (by omega)
  have h3 := randint_mem (a := 0) (b := 5) u3 (by omega)
  exact ⟨h1.1, h1.2, h2.1, h2.2, h3.1, h3.2⟩

/-- Every attribute triple stored in the graph is in range. -/
def graphAttrsInRange (g : DiGraph) : Prop :=
  ∀ p ∈ g.nodes, ∀ a, p.2.attrs = some a → attrsInRange a

theorem graphAttrsInRange_add_node {g : DiGraph} {n : String} {d : NodeData}
    (hg : graphAttrsInRange g) (hd : ∀ a, d.attrs = some a → attrsInRange a) :
    graphAttrsInRange (add_node g n d) := by
  intro p hp a ha
  unfold add_node at hp
  split at hp
  · simp only [List.mem_map] at hp
    obtain ⟨q, hq, hqe⟩ := hp
    by_cases h : q.1 = n
    · rw [if_pos h] at hqe; rw [← hqe] at ha; exact hd a ha
    · rw [if_neg h] at hqe; rw [← hqe] at ha; exact hg q hq a ha
  · rcases List.mem_append.mp hp with h | h
    · exact hg p h a ha
    · simp only [List.mem_singleton] at h
      rw [h] at ha; exact hd a ha

theorem graphAttrsInRange_add_edge {g : DiGraph} {x y : String}
    (hg : graphAttrsInRange g) : graphAttrsInRange (add_edge g x y) := by
  have step : ∀ (g' : DiGraph) (z : String), graphAttrsInRange g' →
      graphAttrsInRange { g' with nodes := g'.nodes ++ [(z, ⟨none, none⟩)] } := by
    intro g' z hg' p hp a ha
    rcases List.mem_append.mp hp with h | h
    · exact hg' p h a ha
    · simp only [List.mem_singleton] at h
      subst h; simp at ha
  unfold add_edge
  dsimp only
  split
  · split
    · split <;> exact hg
    · split <;> exact step _ _ hg
  · split
    · split <;> exact step _ _ hg
    · split <;> exact step _ _ (step _ _ hg)

theorem foldl_preserve {α γ : Type} {P : γ → Prop} {f : γ → α → γ}
    (h : ∀ g a, P g → P (f g a)) :
    ∀ (l : List α) (g : γ), P g → P (l.foldl f g) := by
  intro l
  induction l with
  | nil => intro g hg; exact hg
  | cons a as ih => intro g hg; exact ih _ (h g a hg)

theorem graphAttrsInRange_genSecondary {n : String} {bd : BranchDraw} {g : DiGraph} (j : Nat)
    (hg : graphAttrsInRange g) : graphAttrsInRange (genSecondary n bd g j) := by
  unfold genSecondary
  dsimp only
  split
  · exact graphAttrsInRange_add_edge (graphAttrsInRange_add_node
      (graphAttrsInRange_add_edge (graphAttrsInRange_add_node hg
        (by intro a ha; simp only [Option.some.injEq] at ha
            exact ha ▸ random_attributes_inRange _ _ _)))
      (by intro a ha; simp only [Option.some.injEq] at ha
          exact ha ▸ random_attributes_inRange _ _ _))
  · exact graphAttrsInRange_add_edge (graphAttrsInRange_add_node hg
      (by intro a ha; simp only [Option.some.injEq] at ha
          exact ha ▸ random_attributes_inRange _ _ _))

theorem graphAttrsInRange_genBranch {o : GenDraw} {g : DiGraph} (i : Nat)
    (hg : graphAttrsInRange g) : graphAttrsInRange (genBranch o g i) := by
  unfold genBranch
  exact foldl_preserve (fun g' j hg' => graphAttrsInRange_genSecondary j hg') _ _
    (graphAttrsInRange_add_edge (graphAttrsInRange_add_node hg
      (by intro a ha; simp only [Option.some.injEq] at ha
          exact ha ▸ random_attributes_inRange _ _ _)))

theorem graphAttrsInRange_genCross {nodes : List String} {o : GenDraw} {g : DiGraph} (k : Nat)
    (hg : graphAttrsInRange g) : graphAttrsInRange (genCross nodes o g k) := by
  unfold genCross
  dsimp only
  split
  · exact graphAttrsInRange_add_edge hg
  · exact hg

theorem graphAttrsInRange_generate_story (o : GenDraw) :
    graphAttrsInRange (generate_story o) := by
  unfold generate_story
  refine foldl_preserve (fun g' k hg' => graphAttrsInRange_genCross k hg') _ _ ?_
  refine foldl_preserve (fun g' i hg' => graphAttrsInRange_genBranch i hg') _ _ ?_
  refine graphAttrsInRange_add_node ?_ ?_
  · intro p hp; simp at hp
  · intro a ha; simp only [Option.some.injEq] at ha
    exact ha ▸ random_attributes_inRange _ _ _

/-- C6: every triple produced by `random_attributes` satisfies
`emotion ∈ [1,10]`, `risk ∈ [0,5]`, `reward ∈ [0,5]` for every outcome of
the random source, and hence so does the attribute triple attached to any
node of any generated graph. -/
theorem c6_attribute_bounds :
    (∀ u1 u2 u3, attrsInRange (random_attributes u1 u2 u3)) ∧
    (∀ (o : GenDraw) (n : String) (d : NodeData) (a : Attrs),
      nodeData (generate_story o) n = some d → d.attrs = some a → attrsInRange a) := by
  constructor
  · exact random_attributes_inRange
  · intro o n d a hd ha
    exact graphAttrsInRange_generate_story o (n, d) (mem_of_alookup hd) a ha

/-- Witness for C6: a concrete generated graph whose `"start"` node carries
the in-range triple `(1, 0, 0)`. -/
theorem c6_attribute_bounds_witness :
    nodeData
      (generate_story
        ⟨0, 0, 0, 0, 0, fun _ => ⟨0, 0, 0, 0, 0, fun _ => ⟨0, 0, 0, 0, false, 0, 0, 0, 0, 0⟩⟩,
          0, fun _ => 0, fun _ => 0⟩) "start" =
      some ⟨some "You wake up in a foggy town with no memory of who you are.", some ⟨1, 0, 0⟩⟩ ∧
    attrsInRange ⟨1, 0, 0⟩ :=
  ⟨rfl,
    c6_attribute_bounds.2
      ⟨0, 0, 0, 0, 0, fun _ => ⟨0, 0, 0, 0, 0, fun _ => ⟨0, 0, 0, 0, false, 0, 0, 0, 0, 0⟩⟩,
        0, fun _ => 0, fun _ => 0⟩ "start"
      ⟨some "You wake up in a foggy town with no memory of who you are.", some ⟨1, 0, 0⟩⟩
      ⟨1, 0, 0⟩ rfl rfl⟩

/-- C7: for every attribute triple, non-ending composed text is the chosen
opening line, then the deterministic tone modifiers of `toneSpec`
(an "intense" phrase iff `emotion ≥ 8`, else a "calm but off" phrase iff
`emotion ≤ 3`; a "danger imminent" phrase iff `risk ≥ 4`, else an
"opportunity" phrase iff `reward ≥ 4`), then the literal attribute
readout suffix; ending text is an ending line plus the suffix with no
tone modifiers; and every composed text ends with the suffix. -/
theorem c7_compose_text_tone :
    ∀ (name : String) (a : Attrs) (u1 u2 : Nat),
      compose_text_for_node name a false u1 u2 = choiceFrom openings u1 ++ toneSpec a ++ detailOf a
      ∧ compose_text_for_node name a true u1 u2 = choiceFrom ending_lines u2 ++ detailOf a
      ∧ ∀ ending : Bool, ∃ p, compose_text_for_node name a ending u1 u2 = p ++ detailOf a := by
  intro name a u1 u2
  have hfalse : compose_text_for_node name a false u1 u2 =
      choiceFrom openings u1 ++ toneSpec a ++ detailOf a := by
    unfold compose_text_for_node toneSpec
    dsimp only
    rw [if_neg (by simp)]
    split
    · split <;> simp [String.append_assoc]
    · split
      · split <;> simp [String.append_assoc]
      · split <;> simp [String.append_assoc]
  have htrue : compose_text_for_node name a true u1 u2 =
      choiceFrom ending_lines u2 ++ detailOf a := by
    unfold compose_text_for_node
    dsimp only
    rw [if_pos rfl]
  refine ⟨hfalse, htrue, ?_⟩
  intro ending
  cases ending
  · exact ⟨choiceFrom openings u1 ++ toneSpec a, by rw [hfalse, String.append_assoc]⟩
  · exact ⟨choiceFrom ending_lines u2, htrue⟩

/-- C10: with a non-empty history, `go_back` leaves the visited set and the
whole stats map untouched; only `current_node` and `history` change. -/
theorem c10_go_back_frame :
    ∀ s : StoryData, s.history ≠ [] →
      (go_back s).1.visited = s.visited ∧ (go_back s).1.stats = s.stats := by
  intro s _
  unfold go_back
  cases h : s.history.getLast? <;> simp

/-- Witness for C10 at a concrete state with one history entry. -/
theorem c10_go_back_frame_witness :
    (go_back ⟨"b", ["b"], ["a"], [("b", ⟨1, 3⟩)]⟩).1.visited = ["b"] ∧
    (go_back ⟨"b", ["b"], ["a"], [("b", ⟨1, 3⟩)]⟩).1.stats = [("b", ⟨1, 3⟩)] :=
  c10_go_back_frame ⟨"b", ["b"], ["a"], [("b", ⟨1, 3⟩)]⟩ (by simp)

/-- Counterexample to C2: in a concrete graph with nodes `"start"` and
`"x"` and no edges, `"x"` is not a successor of the current node, yet
`next_node` applies the transition anyway (no rejection, state changed). -/
theorem c2_counterexample :
    "x" ∉ successors ⟨[("start", ⟨none, none⟩), ("x", ⟨none, none⟩)], []⟩ "start" ∧
    next_node ⟨[("start", ⟨none, none⟩), ("x", ⟨none, none⟩)], []⟩ ⟨"start", [], [], []⟩ "x" =
      some ⟨"x", ["x"], ["start"], [("x", ⟨1, 2⟩)]⟩ ∧
    (⟨"x", ["x"], ["start"], [("x", ⟨1, 2⟩)]⟩ : StoryData) ≠ ⟨"start", [], [], []⟩ := by
  refine ⟨by simp [successors], rfl, by simp⟩

/-- C2 (amended): `next_node` validates nothing about the successor
relation.  For every graph, state and node present in the graph — whether
or not it is a successor of the current node — the transition is applied
unconditionally: the current node is pushed on the history and
`current_node` becomes the argument. -/
theorem c2_next_node_unchecked :
    ∀ (g : DiGraph) (s : StoryData) (node : String) (d : NodeData),
      nodeData g node = some d →
      next_node g s node = some
        { current_node := node
          visited := if node ∈ s.visited then s.visited else s.visited ++ [node]
          history := s.history ++ [s.current_node]
          stats := bumpStat s.stats node (d.attrs.getD ⟨5, 2, 2⟩).reward } := by
  intro g s node d h
  unfold next_node get_node_attributes
  rw [h]
  rfl

/-- Witness for the amended C2 at the counterexample's inputs. -/
theorem c2_next_node_unchecked_witness :
    next_node ⟨[("start", ⟨none, none⟩), ("x", ⟨none, none⟩)], []⟩ ⟨"start", [], [], []⟩ "x" =
      some ⟨"x", ["x"], ["start"], [("x", ⟨1, 2⟩)]⟩ := by
  have h := c2_next_node_unchecked ⟨[("start", ⟨none, none⟩), ("x", ⟨none, none⟩)], []⟩
    ⟨"start", [], [], []⟩ "x" ⟨none, none⟩ rfl
  simpa using h

/-- Number of occurrences of `n` in a list (transitions into `n`). -/
def countOcc (n : String) : List String → Nat
  | [] => 0
  | m :: ms => countOcc n ms + (if n = m then 1 else 0)

theorem alookup_updateFirst (f : Stat → Stat) (key m : String)
    (stats : List (String × Stat)) :
    alookup m (updateFirst f key stats) =
      if m = key then (alookup key stats).map f else alookup m stats := by
  induction stats with
  | nil => simp [updateFirst, alookup]
  | cons p ps ih =>
    by_cases hp : p.1 = key
    · rw [updateFirst, if_pos hp]
      by_cases hm : m = key
      · subst hm
        rw [if_pos rfl, alookup, alookup, if_pos hp, if_pos hp]
        rfl
      · rw [if_neg hm, alookup, alookup, if_neg (by rw [hp]; exact fun he => hm he.symm),
          if_neg (fun he => hm (hp ▸ he).symm)]
    · rw [updateFirst, if_neg hp]
      by_cases hm : m = key
      · subst hm
        rw [if_pos rfl, alookup, alookup, if_neg hp, if_neg hp, ih, if_pos rfl]
      · rw [if_neg hm, alookup, alookup, ih, if_neg hm]

theorem bumpStat_visits (stats : List (String × Stat)) (key m : String) (r : Int) :
    ((alookup m (bumpStat stats key r)).map Stat.visits).getD 0 =
      ((alookup m stats).map Stat.visits).getD 0 + (if m = key then 1 else 0) := by
  unfold bumpStat
  cases h : alookup key stats with
  | none =>
    by_cases hm : m = key
    · subst hm
      rw [alookup_append_right h, if_pos rfl, h, alookup, if_pos rfl]
      rfl
    · rw [if_neg hm]
      cases hm2 : alookup m stats with
      | none =>
        rw [alookup_append_right hm2, alookup, if_neg (fun he => hm he.symm)]
        simp [alookup]
      | some st =>
        rw [alookup_append_left hm2]
        simp
  | some st =>
    rw [alookup_updateFirst, h]
    by_cases hm : m = key
    · subst hm; rw [if_pos rfl, if_pos rfl, h]; simp
    · rw [if_neg hm, if_neg hm]; simp

theorem bumpStat_observed (stats : List (String × Stat)) (key m : String) (r : Int) :
    ((alookup m (bumpStat stats key r)).map Stat.observed_reward).getD 0 =
      ((alookup m stats).map Stat.observed_reward).getD 0 + (if m = key then r else 0) := by
  unfold bumpStat
  cases h : alookup key stats with
  | none =>
    by_cases hm : m = key
    · subst hm
      rw [alookup_append_right h, if_pos rfl, h, alookup, if_pos rfl]
      simp
    · rw [if_neg hm]
      cases hm2 : alookup m stats with
      | none =>
        rw [alookup_append_right hm2, alookup, if_neg (fun he => hm he.symm)]
        simp [alookup]
      | some st =>
        rw [alookup_append_left hm2]
        simp
  | some st =>
    rw [alookup_updateFirst, h]
    by_cases hm : m = key
    · subst hm; rw [if_pos rfl, if_pos rfl, h]; simp
    · rw [if_neg hm, if_neg hm]; simp

theorem foldTransitions_none (g : DiGraph) (ns : List String) :
    ns.foldl (fun os n => os.bind (fun t => next_node g t n)) none = none := by
  induction ns with
  | nil => rfl
  | cons n ns ih => exact ih

theorem foldTransitions_cons (g : DiGraph) (s : StoryData) (n : String) (ns : List String) :
    foldTransitions g s (n :: ns) =
      (next_node g s n).bind (fun t => foldTransitions g t ns) := by
  unfold foldTransitions
  cases h : next_node g s n with
  | none => simpa [h] using foldTransitions_none g ns
  | some t => simp [h]

/-- C4: along any succeeding sequence of transitions, the visited set only
ever grows, `stats[n].visits` increases by exactly the number of
transitions into `n`, and `stats[n].observed_reward` increases by exactly
that count times the node's static reward (entries being created with
zero defaults on first visit). -/
theorem c4_transition_invariants :
    ∀ (g : DiGraph) (ns : List String) (s s' : StoryData),
      foldTransitions g s ns = some s' →
      (∀ x ∈ s.visited, x ∈ s'.visited) ∧
      (∀ n, statVisits s' n = statVisits s n + countOcc n ns) ∧
      (∀ n, statObserved s' n = statObserved s n + (countOcc n ns : Int) * rewardOf g n) := by
  intro g ns
  induction ns with
  | nil =>
    intro s s' h
    obtain rfl : s = s' := by simpa [foldTransitions] using h
    refine ⟨fun x hx => hx, fun n => by simp [countOcc], fun n => by simp [countOcc]⟩
  | cons n0 ns ih =>
    intro s s' h
    rw [foldTransitions_cons] at h
    cases hstep : next_node g s n0 with
    | none => rw [hstep] at h; simp at h
    | some t =>
      rw [hstep] at h
      have hrest : foldTransitions g t ns = some s' := h
      obtain ⟨hvis, hvisits, hobs⟩ := ih t s' hrest
      obtain ⟨attrs, hattrs, rfl⟩ :
          ∃ attrs, get_node_attributes g n0 = some attrs ∧
            t = { current_node := n0
                  visited := if n0 ∈ s.visited then s.visited else s.visited ++ [n0]
                  history := s.history ++ [s.current_node]
                  stats := bumpStat s.stats n0 attrs.reward } := by
        unfold next_node at hstep
        cases ha : get_node_attributes g n0 with
        | none => rw [ha] at hstep; exact absurd hstep (by simp)
        | some attrs =>
          rw [ha] at hstep
          have hstep2 : some
              ({ current_node := n0
                 visited := if n0 ∈ s.visited then s.visited else s.visited ++ [n0]
                 history := s.history ++ [s.current_node]
                 stats := bumpStat s.stats n0 attrs.reward } : StoryData) = some t := hstep
          exact ⟨attrs, rfl, (Option.some.inj hstep2).symm⟩
      have hrew : rewardOf g n0 = attrs.reward := by
        unfold rewardOf; rw [hattrs]; rfl
      refine ⟨?_, ?_, ?_⟩
      · intro x hx
        refine hvis x ?_
        dsimp only
        split
        · exact hx
        · exact List.mem_append_left _ hx
      · intro n
        rw [hvisits n]
        have hb := bumpStat_visits s.stats n0 n attrs.reward
        unfold statVisits at hb ⊢
        dsimp only at hb ⊢
        rw [hb, countOcc]
        by_cases hn : n = n0
        · subst hn; simp only [if_pos rfl]; omega
        · simp only [if_neg hn]; omega
      · intro n
        rw [hobs n]
        have hb := bumpStat_observed s.stats n0 n attrs.reward
        unfold statObserved at hb ⊢
        dsimp only at hb ⊢
        rw [hb, countOcc]
        by_cases hn : n = n0
        · subst hn
          rw [if_pos rfl, if_pos rfl, hrew]
          push_cast
          ring
        · rw [if_neg hn, if_neg hn]
          push_cast
          ring

/-- Witness for C4: two transitions into `"a"` (reward 3) from a fresh
state give `visits = 2` and `observed_reward = 6`. -/
theorem c4_transition_invariants_witness :
    statVisits ⟨"a", ["a"], ["start", "a"], [("a", ⟨2, 6⟩)]⟩ "a" =
      statVisits (⟨"start", [], [], []⟩ : StoryData) "a" + countOcc "a" ["a", "a"] :=
  (c4_transition_invariants ⟨[("a", ⟨none, some ⟨5, 1, 3⟩⟩)], []⟩ ["a", "a"]
    ⟨"start", [], [], []⟩ ⟨"a", ["a"], ["start", "a"], [("a", ⟨2, 6⟩)]⟩ rfl).2.1 "a"

theorem foldTransitions_shape :
    ∀ (g : DiGraph) (ns : List String) (s s' : StoryData),
      foldTransitions g s ns = some s' →
      s'.history = s.history ++ (s.current_node :: ns).dropLast ∧
      s'.current_node = ns.getLastD s.current_node := by
  intro g ns
  induction ns with
  | nil =>
    intro s s' h
    obtain rfl : s = s' := by simpa [foldTransitions] using h
    simp
  | cons n0 ns ih =>
    intro s s' h
    rw [foldTransitions_cons] at h
    cases hstep : next_node g s n0 with
    | none => rw [hstep] at h; simp at h
    | some t =>
      rw [hstep] at h
      have hrest : foldTransitions g t ns = some s' := h
      obtain ⟨hh, hc⟩ := ih t s' hrest
      obtain ⟨attrs, hattrs, rfl⟩ :
          ∃ attrs, get_node_attributes g n0 = some attrs ∧
            t = { current_node := n0
                  visited := if n0 ∈ s.visited then s.visited else s.visited ++ [n0]
                  history := s.history ++ [s.current_node]
                  stats := bumpStat s.stats n0 attrs.reward } := by
        unfold next_node at hstep
        cases ha : get_node_attributes g n0 with
        | none => rw [ha] at hstep; exact absurd hstep (by simp)
        | some attrs =>
          rw [ha] at hstep
          have hstep2 : some
              ({ current_node := n0
                 visited := if n0 ∈ s.visited then s.visited else s.visited ++ [n0]
                 history := s.history ++ [s.current_node]
                 stats := bumpStat s.stats n0 attrs.reward } : StoryData) = some t := hstep
          exact ⟨attrs, rfl, (Option.some.inj hstep2).symm⟩
      constructor
      · rw [hh]
        show _ = s.history ++ (s.current_node :: (n0 :: ns).dropLast)
        simp [List.append_assoc]
      · rw [hc]
        show ns.getLastD n0 = (n0 :: ns).getLastD s.current_node
        rw [List.getLastD_cons]

theorem goBack_iter :
    ∀ (l : List String) (s : StoryData), s.history = l →
      (goBackState^[l.length] s).history = [] ∧
      (goBackState^[l.length] s).current_node = l.headD s.current_node := by
  intro l
  induction l using List.reverseRecOn with
  | nil => intro s h; simpa using h
  | append_singleton xs a ih =>
    intro s h
    have hlen : (xs ++ [a]).length = xs.length + 1 := by simp
    rw [hlen, Function.iterate_succ_apply]
    have hgb : goBackState s = { s with current_node := a, history := xs } := by
      unfold goBackState go_back
      rw [h, List.getLast?_concat]
      simp [List.dropLast_concat, h]
    rw [hgb]
    obtain ⟨h1, h2⟩ := ih { s with current_node := a, history := xs } rfl
    refine ⟨h1, ?_⟩
    rw [h2]
    cases xs <;> simp

/-- C5: from a state with empty history, after `k` succeeding transitions,
`k` backtracks return `current_node` to the starting node with empty
history, and one further `go_back` is a no-op that reports
"You are already at the beginning!" rather than failing. -/
theorem c5_backtrack_returns_to_root :
    ∀ (g : DiGraph) (ns : List String) (s s' : StoryData),
      s.history = [] → foldTransitions g s ns = some s' →
      (goBackState^[ns.length] s').current_node = s.current_node ∧
      (goBackState^[ns.length] s').history = [] ∧
      go_back (goBackState^[ns.length] s') = (goBackState^[ns.length] s', some backMsg) := by
  intro g ns s s' h0 h
  obtain ⟨hh, hc⟩ := foldTransitions_shape g ns s s' h
  rw [h0, List.nil_append] at hh
  have hlen : (s.current_node :: ns).dropLast.length = ns.length := by simp
  have hiter := goBack_iter (s.current_node :: ns).dropLast s' hh
  rw [hlen] at hiter
  obtain ⟨h1, h2⟩ := hiter
  have hcur : (goBackState^[ns.length] s').current_node = s.current_node := by
    rw [h2]
    cases ns with
    | nil => simpa using hc
    | cons m ms => rfl
  refine ⟨hcur, h1, ?_⟩
  unfold go_back
  rw [h1]
  rfl

/-- Witness for C5: two transitions then two backtracks on a concrete
graph return to `"start"`, and a third backtrack reports the message. -/
theorem c5_backtrack_returns_to_root_witness :
    (goBackState^[2] ⟨"b", ["a", "b"], ["start", "a"], [("a", ⟨1, 3⟩), ("b", ⟨1, 2⟩)]⟩).current_node
        = "start" ∧
    (goBackState^[2] ⟨"b", ["a", "b"], ["start", "a"], [("a", ⟨1, 3⟩), ("b", ⟨1, 2⟩)]⟩).history
        = [] :=
  have h := c5_backtrack_returns_to_root
    ⟨[("a", ⟨none, some ⟨5, 1, 3⟩⟩), ("b", ⟨none, none⟩)], []⟩ ["a", "b"]
    ⟨"start", [], [], []⟩ ⟨"b", ["a", "b"], ["start", "a"], [("a", ⟨1, 3⟩), ("b", ⟨1, 2⟩)]⟩
    rfl rfl
  ⟨h.1, h.2.1⟩

/-! ### C3: shape of the generated graph at the root -/

/-- Node ids of the form `choice_...` (every generated non-root id). -/
def startsWithChoice (x : String) : Prop := ∃ s, x = "choice_" ++ s

theorem startsWithChoice_ne_start {x : String} (h : startsWithChoice x) : x ≠ "start" := by
  obtain ⟨s, rfl⟩ := h
  intro h
  have hd : ("choice_" ++ s).data = "start".data := by rw [h]
  rw [String.data_append] at hd
  have hc : "choice_".data = ['c', 'h', 'o', 'i', 'c', 'e', '_'] := rfl
  rw [hc] at hd
  simp at hd

theorem startsWithChoice_append {x : String} (h : startsWithChoice x) (t : String) :
    startsWithChoice (x ++ t) := by
  obtain ⟨s, rfl⟩ := h
  exact ⟨s ++ t, by rw [String.append_assoc]⟩

theorem startsWithChoice_branchName (i : Nat) :
    startsWithChoice ("choice_" ++ toString (i + 1)) :=
  ⟨toString (i + 1), rfl⟩

theorem add_node_edges (g : DiGraph) (n : String) (d : NodeData) :
    (add_node g n d).edges = g.edges := by
  unfold add_node; split <;> rfl

theorem add_edge_edges_cases (g : DiGraph) (a b : String) :
    (add_edge g a b).edges = g.edges ∨ (add_edge g a b).edges = g.edges ++ [(a, b)] := by
  unfold add_edge
  dsimp only
  split
  · split
    · split <;> simp
    · split <;> simp
  · split
    · split <;> simp
    · split <;> simp

theorem mem_edges_add_edge {g : DiGraph} {e : String × String} (a b : String)
    (h : e ∈ g.edges) : e ∈ (add_edge g a b).edges := by
  rcases add_edge_edges_cases g a b with hc | hc <;> rw [hc]
  · exact h
  · exact List.mem_append_left _ h

theorem self_mem_edges_add_edge (g : DiGraph) (a b : String) :
    (a, b) ∈ (add_edge g a b).edges := by
  unfold add_edge
  dsimp only
  split
  · split
    · split
      · next h => simpa [has_edge] using h
      · simp
    · split
      · next h => simpa [has_edge] using h
      · simp
  · split
    · split
      · next h => simpa [has_edge] using h
      · simp
    · split
      · next h => simpa [has_edge] using h
      · simp

/-- No generated edge points at the root. -/
def noEdgeIntoStart (g : DiGraph) : Prop := ∀ e ∈ g.edges, e.2 ≠ "start"

theorem noEdgeIntoStart_add_node {g : DiGraph} (n : String) (d : NodeData)
    (h : noEdgeIntoStart g) : noEdgeIntoStart (add_node g n d) := by
  intro e he
  rw [add_node_edges] at he
  exact h e he

theorem noEdgeIntoStart_add_edge {g : DiGraph} {a b : String} (hb : b ≠ "start")
    (h : noEdgeIntoStart g) : noEdgeIntoStart (add_edge g a b) := by
  intro e he
  rcases add_edge_edges_cases g a b with hc | hc <;> rw [hc] at he
  · exact h e he
  · rcases List.mem_append.mp he with h1 | h1
    · exact h e h1
    · simp only [List.mem_singleton] at h1
      subst h1; exact hb

theorem noEdgeIntoStart_genSecondary {n : String} {bd : BranchDraw} {g : DiGraph} (j : Nat)
    (hn : startsWithChoice n) (h : noEdgeIntoStart g) :
    noEdgeIntoStart (genSecondary n bd g j) := by
  unfold genSecondary
  dsimp only
  have hm : startsWithChoice (n ++ "_path" ++ toString j) :=
    startsWithChoice_append (startsWithChoice_append hn "_path") (toString j)
  split
  · exact noEdgeIntoStart_add_edge
      (startsWithChoice_ne_start (startsWithChoice_append hm "_end"))
      (noEdgeIntoStart_add_node _ _
        (noEdgeIntoStart_add_edge (startsWithChoice_ne_start hm)
          (noEdgeIntoStart_add_node _ _ h)))
  · exact noEdgeIntoStart_add_edge (startsWithChoice_ne_start hm)
      (noEdgeIntoStart_add_node _ _ h)

theorem noEdgeIntoStart_genBranch {o : GenDraw} {g : DiGraph} (i : Nat)
    (h : noEdgeIntoStart g) : noEdgeIntoStart (genBranch o g i) := by
  unfold genBranch
  dsimp only
  refine foldl_preserve
    (fun g' j hg' => noEdgeIntoStart_genSecondary j (startsWithChoice_branchName i) hg') _ _ ?_
  exact noEdgeIntoStart_add_edge
    (startsWithChoice_ne_start (startsWithChoice_branchName i))
    (noEdgeIntoStart_add_node _ _ h)

theorem noEdgeIntoStart_genCross {nodes : List String} {o : GenDraw} {g : DiGraph} (k : Nat)
    (h : noEdgeIntoStart g) : noEdgeIntoStart (genCross nodes o g k) := by
  unfold genCross
  dsimp only
  split
  · next hcond => exact noEdgeIntoStart_add_edge hcond.2.1 h
  · exact h

theorem mem_edges_genSecondary {g : DiGraph} {e : String × String}
    (n : String) (bd : BranchDraw) (j : Nat) (h : e ∈ g.edges) :
    e ∈ (genSecondary n bd g j).edges := by
  unfold genSecondary
  dsimp only
  split
  · exact mem_edges_add_edge _ _ (by
      rw [add_node_edges]
      exact mem_edges_add_edge _ _ (by rw [add_node_edges]; exact h))
  · exact mem_edges_add_edge _ _ (by rw [add_node_edges]; exact h)

theorem mem_edges_genBranch {o : GenDraw} {g : DiGraph} {e : String × String} (i : Nat)
    (h : e ∈ g.edges) : e ∈ (genBranch o g i).edges := by
  unfold genBranch
  dsimp only
  refine foldl_preserve (P := fun g' : DiGraph => e ∈ g'.edges)
    (fun g' j hg' => mem_edges_genSecondary _ _ j hg') _ _ ?_
  exact mem_edges_add_edge _ _ (by rw [add_node_edges]; exact h)

theorem mem_edges_genCross {nodes : List String} {o : GenDraw} {g : DiGraph}
    {e : String × String} (k : Nat) (h : e ∈ g.edges) : e ∈ (genCross nodes o g k).edges := by
  unfold genCross
  dsimp only
  split
  · exact mem_edges_add_edge _ _ h
  · exact h

theorem foldl_establish {α γ : Type} {Q : γ → Prop} {f : γ → α → γ} {i : α}
    (hest : ∀ g, Q (f g i)) (hpres : ∀ g a, Q g → Q (f g a)) :
    ∀ (l : List α) (g : γ), i ∈ l → Q (l.foldl f g) := by
  intro l
  induction l with
  | nil => intro g hi; simp at hi
  | cons a as ih =>
    intro g hi
    rcases List.mem_cons.mp hi with rfl | hi
    · exact foldl_preserve hpres as (f g i) (hest g)
    · exact ih (f g a) hi

theorem branch_edge_in_genBranch (o : GenDraw) (g : DiGraph) (i : Nat) :
    ("start", "choice_" ++ toString (i + 1)) ∈ (genBranch o g i).edges := by
  unfold genBranch
  dsimp only
  refine foldl_preserve (P := fun g' : DiGraph => ("start", "choice_" ++ toString (i + 1)) ∈ g'.edges)
    (fun g' j hg' => mem_edges_genSecondary _ _ j hg') _ _ ?_
  exact self_mem_edges_add_edge _ _ _

theorem mem_successors_of_edge {g : DiGraph} {v c : String} (h : (v, c) ∈ g.edges) :
    c ∈ successors g v := by
  unfold successors
  exact List.mem_map.mpr ⟨(v, c), List.mem_filter.mpr ⟨h, by simp⟩, rfl⟩

theorem three_mem_length_le {l : List String} {a b c : String}
    (ha : a ∈ l) (hb : b ∈ l) (hc : c ∈ l)
    (hab : a ≠ b) (hac : a ≠ c) (hbc : b ≠ c) : 3 ≤ l.length := by
  have h1 : ({a, b, c} : Finset String) ⊆ l.toFinset := by
    intro x hx
    simp only [Finset.mem_insert, Finset.mem_singleton] at hx
    rcases hx with rfl | rfl | rfl <;> simpa [List.mem_toFinset]
  have h2 : ({a, b, c} : Finset String).card = 3 := by
    rw [Finset.card_insert_of_not_mem (by simp [hab, hac]),
      Finset.card_insert_of_not_mem (by simp [hbc]), Finset.card_singleton]
  calc 3 = ({a, b, c} : Finset String).card := h2.symm
    _ ≤ l.toFinset.card := Finset.card_le_card h1
    _ ≤ l.length := l.toFinset_card_le

theorem mem_nodeIds_add_node {g : DiGraph} {n : String} (m : String) (d : NodeData)
    (h : n ∈ g.nodes.map Prod.fst) : n ∈ (add_node g m d).nodes.map Prod.fst := by
  unfold add_node
  split
  · simp only [List.map_map]
    obtain ⟨p, hp, hpe⟩ := List.mem_map.mp h
    refine List.mem_map.mpr ⟨p, hp, ?_⟩
    show (if p.1 = m then (m, d) else p).1 = n
    by_cases hpm : p.1 = m
    · rw [if_pos hpm]
      show m = n
      rw [← hpm, hpe]
    · rw [if_neg hpm]
      exact hpe
  · simp only [List.map_append]
    exact List.mem_append_left _ h

theorem mem_nodeIds_add_edge {g : DiGraph} {n : String} (a b : String)
    (h : n ∈ g.nodes.map Prod.fst) : n ∈ (add_edge g a b).nodes.map Prod.fst := by
  unfold add_edge
  dsimp only
  have step : ∀ (g' : DiGraph) (z : String), n ∈ g'.nodes.map Prod.fst →
      n ∈ (g'.nodes ++ [(z, (⟨none, none⟩ : NodeData))]).map Prod.fst := by
    intro g' z hg'
    rw [List.map_append]
    exact List.mem_append_left _ hg'
  split
  · split
    · split <;> exact h
    · split <;> exact step g _ h
  · split
    · split <;> exact step g _ h
    · split <;> exact step _ _ (step g _ h)

theorem mem_nodeIds_genSecondary {g : DiGraph} {x : String}
    (n : String) (bd : BranchDraw) (j : Nat) (h : x ∈ g.nodes.map Prod.fst) :
    x ∈ (genSecondary n bd g j).nodes.map Prod.fst := by
  unfold genSecondary
  dsimp only
  split
  · exact mem_nodeIds_add_edge _ _ (mem_nodeIds_add_node _ _
      (mem_nodeIds_add_edge _ _ (mem_nodeIds_add_node _ _ h)))
  · exact mem_nodeIds_add_edge _ _ (mem_nodeIds_add_node _ _ h)

theorem mem_nodeIds_genBranch {o : GenDraw} {g : DiGraph} {x : String} (i : Nat)
    (h : x ∈ g.nodes.map Prod.fst) : x ∈ (genBranch o g i).nodes.map Prod.fst := by
  unfold genBranch
  dsimp only
  refine foldl_preserve (P := fun g' : DiGraph => x ∈ g'.nodes.map Prod.fst)
    (fun g' j hg' => mem_nodeIds_genSecondary _ _ j hg') _ _ ?_
  exact mem_nodeIds_add_edge _ _ (mem_nodeIds_add_node _ _ h)

theorem mem_nodeIds_genCross {nodes : List String} {o : GenDraw} {g : DiGraph} {x : String}
    (k : Nat) (h : x ∈ g.nodes.map Prod.fst) :
    x ∈ (genCross nodes o g k).nodes.map Prod.fst := by
  unfold genCross
  dsimp only
  split
  · exact mem_nodeIds_add_edge _ _ h
  · exact h

theorem start_mem_generate_story (o : GenDraw) :
    "start" ∈ (generate_story o).nodes.map Prod.fst := by
  unfold generate_story
  dsimp only
  refine foldl_preserve (P := fun g' : DiGraph => "start" ∈ g'.nodes.map Prod.fst)
    (fun g' k hg' => mem_nodeIds_genCross k hg') _ _ ?_
  refine foldl_preserve (P := fun g' : DiGraph => "start" ∈ g'.nodes.map Prod.fst)
    (fun g' i hg' => mem_nodeIds_genBranch i hg') _ _ ?_
  simp [add_node, hasNode, nodeData, alookup]

theorem noEdgeIntoStart_generate_story (o : GenDraw) :
    noEdgeIntoStart (generate_story o) := by
  unfold generate_story
  dsimp only
  refine foldl_preserve (fun g' k hg' => noEdgeIntoStart_genCross k hg') _ _ ?_
  refine foldl_preserve (fun g' i hg' => noEdgeIntoStart_genBranch i hg') _ _ ?_
  intro e he
  rw [add_node_edges] at he
  exact absurd he (List.not_mem_nil e)

theorem branch_edge_in_generate_story (o : GenDraw) (i : Nat)
    (hi : i < randintNat 3 6 o.numBranchesRaw) :
    ("start", "choice_" ++ toString (i + 1)) ∈ (generate_story o).edges := by
  unfold generate_story
  dsimp only
  refine foldl_preserve (P := fun g' : DiGraph => ("start", "choice_" ++ toString (i + 1)) ∈ g'.edges)
    (fun g' k hg' => mem_edges_genCross k hg') _ _ ?_
  exact foldl_establish
    (Q := fun g' : DiGraph => ("start", "choice_" ++ toString (i + 1)) ∈ g'.edges)
    (f := genBranch o) (i := i)
    (fun g' => branch_edge_in_genBranch o g' i)
    (fun g' a hg' => mem_edges_genBranch a hg') _ _ (List.mem_range.mpr hi)

/-- C3: for every outcome of the random source, the generated graph
contains the node `"start"`, `"start"` has zero incoming edges, and
`"start"` has out-degree at least 3. -/
theorem c3_generated_root_shape (o : GenDraw) :
    hasNode (generate_story o) "start" = true ∧
    in_degree (generate_story o) "start" = 0 ∧
    3 ≤ out_degree (generate_story o) "start" := by
  refine ⟨?_, ?_, ?_⟩
  · rw [hasNode, nodeData]
    exact alookup_isSome.mpr (start_mem_generate_story o)
  · have hP := noEdgeIntoStart_generate_story o
    rw [in_degree, List.length_eq_zero, List.filter_eq_nil_iff]
    intro e he
    simpa using hP e he
  · have hb : randintNat 3 6 o.numBranchesRaw = 3 + o.numBranchesRaw % 4 := rfl
    have ha0 := mem_successors_of_edge (branch_edge_in_generate_story o 0 (by omega))
    have ha1 := mem_successors_of_edge (branch_edge_in_generate_story o 1 (by omega))
    have ha2 := mem_successors_of_edge (branch_edge_in_generate_story o 2 (by omega))
    exact three_mem_length_le ha0 ha1 ha2 (by decide) (by decide) (by decide)

/-! ### C1, C9: the recommendation engine -/

/-- Model of `random.uniform(a, b)`: `a + (b - a) * u` where `u` is the
raw `random.random()` draw in `[0, 1]`. -/
noncomputable def uniformDraw (a b u : Real) : Real := a + (b - a) * u

/-- `SimpleAIAdvisor.score_choice`.  `u` is the raw draw behind the
`random.uniform(-0.3, 0.3)` exploration noise; `none` models the
`KeyError` raised when the node is absent from the graph. -/
noncomputable def score_choice (g : DiGraph) (sd : StoryData) (node : String) (u : Real) :
    Option Real :=
  (get_node_attributes g node).map (fun attrs =>
    let reward := (attrs.reward : Real)
    let risk := (attrs.risk : Real)
    let emotion := (attrs.emotion : Real)
    let w_reward : Real := 1.1
    let w_risk : Real := 1.2
    let emotion_pref := Real.exp (-((emotion - 7) ^ 2) / (2 * (2.0 ^ 2)))
    let novelty : Real := if node ∈ sd.visited then 0.0 else 1.0
    let observed_reward := (statObserved sd node : Real)
    let base_score := w_reward * reward - w_risk * risk
    let score := base_score + 1.0 * emotion_pref + 1.3 * novelty + 0.2 * observed_reward
    let noise := uniformDraw (-0.3) 0.3 u
    score + noise)

open Classical in
/-- Stable descending insertion for `list.sort(key=score, reverse=True)`:
an element moves past exactly the entries with strictly smaller score. -/
noncomputable def insertDesc (x : String × Real) : List (String × Real) → List (String × Real)
  | [] => [x]
  | y :: ys => if y.2 < x.2 then x :: y :: ys else y :: insertDesc x ys

/-- Stable descending sort by score (`sorted(..., reverse=True)`). -/
noncomputable def sortDesc : List (String × Real) → List (String × Real)
  | [] => []
  | x :: xs => insertDesc x (sortDesc xs)

/-- Score every choice (`[(c, self.score_choice(c, ...)) for c in choices]`);
the `i`-th score call consumes the fresh noise draw `us i`. -/
noncomputable def scoreAll (g : DiGraph) (sd : StoryData) (us : Nat → Real) :
    List String → Nat → Option (List (String × Real))
  | [], _ => some []
  | c :: cs, i =>
    match score_choice g sd c (us i), scoreAll g sd us cs (i + 1) with
    | some s, some rest => some ((c, s) :: rest)
    | _, _ => none

/-- `SimpleAIAdvisor.rank_choices`: score every choice, sort descending. -/
noncomputable def rank_choices (g : DiGraph) (sd : StoryData) (us : Nat → Real)
    (choices : List String) : Option (List (String × Real)) :=
  (scoreAll g sd us choices 0).map sortDesc

/-- `SimpleAIAdvisor.explain_choice`.  `fmt` abstracts the float
formatting of the score line (`"Score = {score:.2f}"`); everything else is
composed exactly as in the source. -/
def explain_choice (fmt : Real → String) (g : DiGraph) (sd : StoryData) (node : String)
    (score : Real) : Option String :=
  (get_node_attributes g node).map (fun attrs =>
    let parts : List String :=
      [fmt score,
       "Reward=" ++ toString attrs.reward,
       "Risk=" ++ toString attrs.risk,
       "Emotion=" ++ toString attrs.emotion]
    let parts := if node ∈ sd.visited then parts else parts ++ ["Novelty bonus: not visited"]
    let observed := statObserved sd node
    let parts := if observed ≠ 0 then parts ++ ["Observed reward=" ++ toString observed]
      else parts
    String.intercalate "; " parts)

/-- `SimpleAIAdvisor.recommend`: `(None, None)` on an empty choice list
(modelled as `some none`), otherwise the top-ranked choice and its
explanation; the outer `none` models a raised `KeyError`. -/
noncomputable def recommend (fmt : Real → String) (g : DiGraph) (sd : StoryData)
    (us : Nat → Real) (choices : List String) : Option (Option (String × String)) :=
  if choices = [] then some none
  else (rank_choices g sd us choices).bind (fun ranked =>
    match ranked with
    | [] => none
    | (best, s) :: _ => (explain_choice fmt g sd best s).map (fun e => some (best, e)))

/-- C1: for every node whose attribute lookup succeeds and every player
state, the returned score is exactly
`base + 1.0*emotionPref + novelty + observedFactor + noise` with
`base = 1.1*reward - 1.2*risk`, the Gaussian emotion preference peaked at
7, `novelty = 1.3` iff the node is unvisited, `observedFactor` a fifth of
the accumulated observed reward, and the noise draw lying in
`[-0.3, 0.3]`. -/
theorem c1_score_formula :
    ∀ (g : DiGraph) (sd : StoryData) (node : String) (a : Attrs) (u : Real),
      0 ≤ u → u ≤ 1 → get_node_attributes g node = some a →
      score_choice g sd node u = some
        ((1.1 * (a.reward : Real) - 1.2 * (a.risk : Real))
          + 1.0 * Real.exp (-(((a.emotion : Real) - 7) ^ 2) / (2 * 2 ^ 2))
          + (if node ∈ sd.visited then (0 : Real) else 1.3)
          + 0.2 * (statObserved sd node : Real)
          + uniformDraw (-0.3) 0.3 u) ∧
      -0.3 ≤ uniformDraw (-0.3) 0.3 u ∧ uniformDraw (-0.3) 0.3 u ≤ 0.3 := by
  intro g sd node a u hu0 hu1 ha
  refine ⟨?_, ?_, ?_⟩
  · unfold score_choice
    rw [ha]
    dsimp only [Option.map_some']
    congr 1
    split
    · norm_num
    · norm_num
  · unfold uniformDraw; nlinarith
  · unfold uniformDraw; nlinarith

/-- Witness for C1 at a concrete graph, state and noise draw `u = 0`. -/
theorem c1_score_formula_witness :
    score_choice ⟨[("a", ⟨none, some ⟨5, 1, 3⟩⟩)], []⟩ ⟨"start", [], [], []⟩ "a" 0 = some
        ((1.1 * ((3 : Int) : Real) - 1.2 * ((1 : Int) : Real))
          + 1.0 * Real.exp (-((((5 : Int) : Real) - 7) ^ 2) / (2 * 2 ^ 2))
          + (if "a" ∈ (⟨"start", [], [], []⟩ : StoryData).visited then (0 : Real) else 1.3)
          + 0.2 * (statObserved ⟨"start", [], [], []⟩ "a" : Real)
          + uniformDraw (-0.3) 0.3 0) ∧
      -0.3 ≤ uniformDraw (-0.3) 0.3 0 ∧ uniformDraw (-0.3) 0.3 0 ≤ 0.3 :=
  c1_score_formula ⟨[("a", ⟨none, some ⟨5, 1, 3⟩⟩)], []⟩ ⟨"start", [], [], []⟩ "a" ⟨5, 1, 3⟩ 0
    (by norm_num) (by norm_num) rfl

/-- C9: when a node is present in the graph but has no stored attributes,
`get_node_attributes` substitutes the default triple `(5, 2, 2)` instead
of failing, so `score_choice`, `explain_choice` and `recommend` all
succeed on that node. -/
theorem c9_missing_attrs_default :
    ∀ (g : DiGraph) (sd : StoryData) (node : String) (d : NodeData) (fmt : Real → String)
      (us : Nat → Real) (u s : Real),
      nodeData g node = some d → d.attrs = none →
      get_node_attributes g node = some ⟨5, 2, 2⟩ ∧
      (score_choice g sd node u).isSome = true ∧
      (explain_choice fmt g sd node s).isSome = true ∧
      (∃ e, recommend fmt g sd us [node] = some (some (node, e))) := by
  intro g sd node d fmt us u s h1 h2
  have hga : get_node_attributes g node = some ⟨5, 2, 2⟩ := by
    unfold get_node_attributes
    rw [h1]
    simp [h2]
  refine ⟨hga, ?_, ?_, ?_⟩
  · unfold score_choice
    rw [hga]
    simp
  · unfold explain_choice
    rw [hga]
    simp
  · obtain ⟨s0, hs0⟩ : ∃ s0, score_choice g sd node (us 0) = some s0 := by
      unfold score_choice
      rw [hga]
      exact ⟨_, rfl⟩
    obtain ⟨e0, he0⟩ : ∃ e0, explain_choice fmt g sd node s0 = some e0 := by
      unfold explain_choice
      rw [hga]
      exact ⟨_, rfl⟩
    refine ⟨e0, ?_⟩
    unfold recommend
    rw [if_neg (by simp)]
    unfold rank_choices
    have hall : scoreAll g sd us [node] 0 = some [(node, s0)] := by
      unfold scoreAll
      rw [hs0]
      rfl
    rw [hall]
    dsimp only [Option.map_some']
    show (explain_choice fmt g sd node s0).map (fun e => some (node, e)) = some (some (node, e0))
    rw [he0]
    rfl

/-- Witness for C9 at a concrete graph whose node `"x"` lacks attributes. -/
theorem c9_missing_attrs_default_witness :
    get_node_attributes ⟨[("x", ⟨none, none⟩)], []⟩ "x" = some ⟨5, 2, 2⟩ ∧
    (score_choice ⟨[("x", ⟨none, none⟩)], []⟩ ⟨"start", [], [], []⟩ "x" 0).isSome = true ∧
    (explain_choice (fun _ => "") ⟨[("x", ⟨none, none⟩)], []⟩ ⟨"start", [], [], []⟩ "x" 0).isSome
        = true ∧
    (∃ e, recommend (fun _ => "") ⟨[("x", ⟨none, none⟩)], []⟩ ⟨"start", [], [], []⟩
        (fun _ => 0) ["x"] = some (some ("x", e))) :=
  c9_missing_attrs_default ⟨[("x", ⟨none, none⟩)], []⟩ ⟨"start", [], [], []⟩ "x" ⟨none, none⟩
    (fun _ => "") (fun _ => 0) 0 0 rfl rfl

/-! ### C8: hierarchical layout -/

/-- Inner loop of the BFS in `hierarchy_layout`:
`for child in G.successors(v): if child not in levels: levels[child] =
levels[v] + 1; queue.append(child)`.  The accumulator carries the levels
dictionary and the list of newly enqueued nodes. -/
def bfsVisit (g : DiGraph) (v : String) :
    List (String × Nat) × List String → List String → List (String × Nat) × List String
  | acc, [] => acc
  | acc, c :: cs =>
    bfsVisit g v
      (if (alookup c acc.1).isSome then acc
       else (acc.1 ++ [(c, (alookup v acc.1).getD 0 + 1)], acc.2 ++ [c])) cs

/-- The BFS `while queue:` loop with a FIFO queue (`deque.popleft` /
`append`).  The fuel argument only serves termination; Lean cannot see
the combinatorial bound directly, and `edges.length + 1` is proved
sufficient below. -/
def bfsLoop (g : DiGraph) : Nat → List (String × Nat) → List String → List (String × Nat)
  | 0, levels, _ => levels
  | _ + 1, levels, [] => levels
  | fuel + 1, levels, v :: qs =>
    let step := bfsVisit g v (levels, []) (successors g v)
    bfsLoop g fuel step.1 (qs ++ step.2)

/-- The `levels` dictionary computed by `hierarchy_layout`'s BFS phase. -/
def bfsLevels (g : DiGraph) (root : String) : List (String × Nat) :=
  bfsLoop g (g.edges.length + 1) [(root, 0)] [root]

/-- Python `enumerate` starting at `i`. -/
def enumFrom {α : Type} (i : Nat) : List α → List (Nat × α)
  | [] => []
  | a :: l => (i, a) :: enumFrom (i + 1) l

/-- The depth keys of `layer_nodes` in dictionary insertion order
(first appearance in `levels`). -/
def firstOccs (l : List Nat) : List Nat :=
  l.foldl (fun acc d => if d ∈ acc then acc else acc ++ [d]) []

/-- The nodes of one depth layer, in discovery order
(`layer_nodes.setdefault(level, []).append(node)`). -/
def layerOf (levels : List (String × Nat)) (d : Nat) : List String :=
  (levels.filter (fun p => p.2 = d)).map Prod.fst

/-- Zero-based index of the first occurrence of a node in a layer. -/
def idxOfS (n : String) : List String → Nat
  | [] => 0
  | a :: l => if a = n then 0 else idxOfS n l + 1

/-- One layer of positions: `for i, node in enumerate(nodes):
pos[node] = (i * dx, y)`. -/
def rowBlock (ns : List String) (dx y : Rat) : List (String × (Rat × Rat)) :=
  (enumFrom 0 ns).map (fun q => (q.2, ((q.1 : Rat) * dx, y)))

/-- `hierarchy_layout(G, root, width, vert_gap, vert_loc)`: BFS depths,
grouping into layers, and the position assignment
`pos[node] = (i * dx, -depth * vert_gap + vert_loc)` with
`dx = width / (len(nodes) + 1)`.  Exact rational arithmetic models the
float arithmetic of the source. -/
def hierarchy_layout (g : DiGraph) (root : String) (width vert_gap vert_loc : Rat) :
    List (String × (Rat × Rat)) :=
  let levels := bfsLevels g root
  let depths := firstOccs (levels.map Prod.snd)
  (depths.map (fun depth =>
    let nodes := layerOf levels depth
    rowBlock nodes (width / (nodes.length + 1)) (-(depth : Rat) * vert_gap + vert_loc))).flatten

/-- Reachability along successor edges, the specification's notion for
which nodes the layout must contain. -/
inductive ReachableFrom (g : DiGraph) (root : String) : String → Prop
  | refl : ReachableFrom g root root
  | step {v c : String} : ReachableFrom g root v → c ∈ successors g v →
      ReachableFrom g root c

/-- Key list of a levels dictionary. -/
def keysOf (l : List (String × Nat)) : List String := l.map Prod.fst

/-- Universe bounding every key the BFS can ever record: the root plus
every edge target. -/
def bfsU (g : DiGraph) (root : String) : List String := root :: g.edges.map Prod.snd

theorem alookup_of_mem_nodup {β : Type} {l : List (String × β)} {n : String} {x : β}
    (hnd : (l.map Prod.fst).Nodup) (h : (n, x) ∈ l) : alookup n l = some x := by
  induction l with
  | nil => simp at h
  | cons p ps ih =>
    simp only [List.map_cons, List.nodup_cons] at hnd
    rcases List.mem_cons.mp h with rfl | h2
    · rw [alookup, if_pos rfl]
    · by_cases hp : p.1 = n
      · exfalso
        refine hnd.1 ?_
        rw [hp]
        exact List.mem_map.mpr ⟨(n, x), h2, rfl⟩
      · rw [alookup, if_neg hp]
        exact ih hnd.2 h2

theorem nodup_subset_length_le {l1 l2 : List String} (h1 : l1.Nodup)
    (h2 : ∀ x ∈ l1, x ∈ l2) : l1.length ≤ l2.length := by
  calc l1.length = l1.toFinset.card := (List.toFinset_card_of_nodup h1).symm
    _ ≤ l2.toFinset.card :=
        Finset.card_le_card (fun x hx => List.mem_toFinset.mpr (h2 x (List.mem_toFinset.mp hx)))
    _ ≤ l2.length := l2.toFinset_card_le

theorem successor_mem_targets {g : DiGraph} {v c : String} (h : c ∈ successors g v) :
    c ∈ g.edges.map Prod.snd := by
  unfold successors at h
  obtain ⟨e, he, rfl⟩ := List.mem_map.mp h
  exact List.mem_map_of_mem _ (List.mem_of_mem_filter he)

theorem firstOccs_aux_mem (x : Nat) :
    ∀ (l acc : List Nat),
      (x ∈ l.foldl (fun acc d => if d ∈ acc then acc else acc ++ [d]) acc
        ↔ x ∈ acc ∨ x ∈ l) := by
  intro l
  induction l with
  | nil => intro acc; simp
  | cons d0 ds ih =>
    intro acc
    rw [List.foldl_cons, ih]
    by_cases hd : d0 ∈ acc
    · rw [if_pos hd]
      constructor
      · intro h
        rcases h with h | h
        · exact Or.inl h
        · exact Or.inr (List.mem_cons_of_mem _ h)
      · intro h
        rcases h with h | h
        · exact Or.inl h
        · rcases List.mem_cons.mp h with rfl | h2
          · exact Or.inl hd
          · exact Or.inr h2
    · rw [if_neg hd]
      constructor
      · intro h
        rcases h with h | h
        · rcases List.mem_append.mp h with h2 | h2
          · exact Or.inl h2
          · simp only [List.mem_singleton] at h2
            exact Or.inr (h2 ▸ List.mem_cons_self _ _)
        · exact Or.inr (List.mem_cons_of_mem _ h)
      · intro h
        rcases h with h | h
        · exact Or.inl (List.mem_append_left _ h)
        · rcases List.mem_cons.mp h with rfl | h2
          · exact Or.inl (List.mem_append_right _ (by simp))
          · exact Or.inr h2

theorem mem_firstOccs {x : Nat} {l : List Nat} : x ∈ firstOccs l ↔ x ∈ l := by
  rw [firstOccs, firstOccs_aux_mem]
  simp

theorem enumFrom_block_keys {α : Type} (f : Nat → α) :
    ∀ (ns : List String) (i : Nat),
      ((enumFrom i ns).map (fun q => (q.2, f q.1))).map Prod.fst = ns := by
  intro ns
  induction ns with
  | nil => intro i; rfl
  | cons a l ih =>
    intro i
    simp only [enumFrom, List.map_cons]
    rw [ih]

theorem enumFrom_block_lookup {α : Type} (f : Nat → α) {n : String} :
    ∀ (ns : List String) (i : Nat), n ∈ ns →
      alookup n ((enumFrom i ns).map (fun q => (q.2, f q.1))) = some (f (i + idxOfS n ns)) := by
  intro ns
  induction ns with
  | nil => intro i h; simp at h
  | cons a l ih =>
    intro i h
    simp only [enumFrom, List.map_cons]
    by_cases ha : a = n
    · rw [alookup, if_pos ha, idxOfS, if_pos ha]
      simp [ha]
    · rw [alookup, if_neg ha, idxOfS, if_neg ha]
      rcases List.mem_cons.mp h with rfl | h2
      · exact absurd rfl ha
      · rw [ih (i + 1) h2]
        have harith : i + 1 + idxOfS n l = i + (idxOfS n l + 1) := by omega
        rw [harith]

theorem enumFrom_block_lookup_none {α : Type} (f : Nat → α) {n : String}
    {ns : List String} (i : Nat) (h : n ∉ ns) :
    alookup n ((enumFrom i ns).map (fun q => (q.2, f q.1))) = none := by
  rw [alookup_eq_none, enumFrom_block_keys]
  exact h

theorem alookup_flatten {β : Type} {n : String} (f : Nat → List (String × β)) {x : β} :
    ∀ (ds : List Nat) (d : Nat), d ∈ ds →
      (∀ d2 ∈ ds, d2 ≠ d → alookup n (f d2) = none) →
      alookup n (f d) = some x →
      alookup n (ds.map f).flatten = some x := by
  intro ds
  induction ds with
  | nil => intro d hd; simp at hd
  | cons d0 ds ih =>
    intro d hd hnone hx
    simp only [List.map_cons, List.flatten_cons]
    by_cases h0 : d0 = d
    · subst h0
      exact alookup_append_left hx
    · rw [alookup_append_right (hnone d0 (List.mem_cons_self _ _) h0)]
      have hd2 : d ∈ ds := by
        rcases List.mem_cons.mp hd with rfl | h2
        · exact absurd rfl h0
        · exact h2
      exact ih d hd2 (fun d2 h2 hne => hnone d2 (List.mem_cons_of_mem _ h2) hne) hx

theorem keysOf_append (l1 l2 : List (String × Nat)) :
    keysOf (l1 ++ l2) = keysOf l1 ++ keysOf l2 := List.map_append _ _ _

theorem bfsVisit_spec (g : DiGraph) (v : String) (dv : Nat) :
    ∀ (cs : List String) (lv : List (String × Nat)) (qa : List String),
      alookup v lv = some dv → (keysOf lv).Nodup →
      ∃ new : List (String × Nat),
        (bfsVisit g v (lv, qa) cs).1 = lv ++ new ∧
        (bfsVisit g v (lv, qa) cs).2 = qa ++ keysOf new ∧
        (keysOf (lv ++ new)).Nodup ∧
        (∀ p ∈ new, p.2 = dv + 1 ∧ p.1 ∈ cs ∧ p.1 ∉ keysOf lv) ∧
        (∀ c ∈ cs, c ∈ keysOf (lv ++ new)) := by
  intro cs
  induction cs with
  | nil =>
    intro lv qa hv hnd
    refine ⟨[], by simp [bfsVisit], by simp [bfsVisit, keysOf], by simpa using hnd, ?_, ?_⟩
    · intro p hp; simp at hp
    · intro c hc; simp at hc
  | cons c cs ih =>
    intro lv qa hv hnd
    by_cases hc : (alookup c lv).isSome = true
    · have hstep : bfsVisit g v (lv, qa) (c :: cs) = bfsVisit g v (lv, qa) cs := by
        rw [bfsVisit, if_pos hc]
      obtain ⟨new, h1, h2, h3, h4, h5⟩ := ih lv qa hv hnd
      rw [hstep]
      refine ⟨new, h1, h2, h3, ?_, ?_⟩
      · intro p hp
        obtain ⟨ha, hb, hcc⟩ := h4 p hp
        exact ⟨ha, List.mem_cons_of_mem _ hb, hcc⟩
      · intro x hx
        rcases List.mem_cons.mp hx with rfl | hx2
        · rw [keysOf_append]
          exact List.mem_append_left _ (alookup_isSome.mp hc)
        · exact h5 x hx2
    · have hcm : c ∉ keysOf lv := fun hmem => hc (alookup_isSome.mpr hmem)
      have hstep : bfsVisit g v (lv, qa) (c :: cs) =
          bfsVisit g v (lv ++ [(c, dv + 1)], qa ++ [c]) cs := by
        rw [bfsVisit, if_neg hc]
        dsimp only
        rw [hv]
        rfl
      have hv2 : alookup v (lv ++ [(c, dv + 1)]) = some dv := alookup_append_left hv
      have hnd2 : (keysOf (lv ++ [(c, dv + 1)])).Nodup := by
        rw [keysOf_append, List.nodup_append]
        refine ⟨hnd, by simp [keysOf], ?_⟩
        intro x hx
        simp only [keysOf, List.map_cons, List.map_nil, List.mem_singleton]
        intro hxc
        exact hcm (hxc ▸ hx)
      obtain ⟨new, h1, h2, h3, h4, h5⟩ := ih (lv ++ [(c, dv + 1)]) (qa ++ [c]) hv2 hnd2
      have heq : lv ++ (c, dv + 1) :: new = lv ++ [(c, dv + 1)] ++ new := by
        rw [List.append_assoc]
        rfl
      rw [hstep]
      refine ⟨(c, dv + 1) :: new, ?_, ?_, ?_, ?_, ?_⟩
      · rw [h1, List.append_assoc]
        rfl
      · rw [h2, List.append_assoc]
        rfl
      · rw [heq]
        exact h3
      · intro p hp
        rcases List.mem_cons.mp hp with rfl | hp2
        · exact ⟨rfl, List.mem_cons_self _ _, hcm⟩
        · obtain ⟨ha, hb, hcc⟩ := h4 p hp2
          refine ⟨ha, List.mem_cons_of_mem _ hb, ?_⟩
          intro hmem
          refine hcc ?_
          rw [keysOf_append]
          exact List.mem_append_left _ hmem
      · intro x hx
        rcases List.mem_cons.mp hx with rfl | hx2
        · rw [keysOf_append]
          exact List.mem_append_right _ (List.mem_cons_self _ _)
        · rw [heq]
          exact h5 x hx2

/-- The BFS loop invariant: keys are distinct, queued nodes are recorded,
all keys are the root or edge targets, fully processed nodes have all
their successors recorded, every recorded node is reachable, every
positive-depth entry is discovered from an entry one level up, and the
root sits at the head with depth 0. -/
def bfsInv (g : DiGraph) (root : String) (levels : List (String × Nat))
    (queue : List String) : Prop :=
  (keysOf levels).Nodup ∧
  (∀ n ∈ queue, n ∈ keysOf levels) ∧
  (∀ n ∈ keysOf levels, n ∈ bfsU g root) ∧
  (∀ n ∈ keysOf levels, n ∉ queue → ∀ c ∈ successors g n, c ∈ keysOf levels) ∧
  (∀ p ∈ levels, ReachableFrom g root p.1) ∧
  (∀ p ∈ levels, ∀ dd : Nat, p.2 = dd + 1 → ∃ v, (v, dd) ∈ levels ∧ p.1 ∈ successors g v) ∧
  (∃ rest, levels = (root, 0) :: rest)

theorem bfsLoop_spec (g : DiGraph) (root : String) :
    ∀ (fuel : Nat) (levels : List (String × Nat)) (queue : List String),
      bfsInv g root levels queue →
      queue.length + ((bfsU g root).length - (keysOf levels).length) ≤ fuel →
      bfsInv g root (bfsLoop g fuel levels queue) [] := by
  intro fuel
  induction fuel with
  | zero =>
    intro levels queue hinv hphi
    have hq : queue = [] := List.length_eq_zero.mp (by omega)
    subst hq
    exact hinv
  | succ fuel ih =>
    intro levels queue hinv hphi
    cases queue with
    | nil => exact hinv
    | cons v qs =>
      obtain ⟨hnd, hq, hU, hcl, hre, hly, hhd⟩ := hinv
      have hvk : v ∈ keysOf levels := hq v (List.mem_cons_self _ _)
      obtain ⟨dv, hdv⟩ := Option.isSome_iff_exists.mp (alookup_isSome.mpr hvk)
      obtain ⟨new, g1, g2, g3, g4, g5⟩ :=
        bfsVisit_spec g v dv (successors g v) levels [] hdv hnd
      have hloop : bfsLoop g (fuel + 1) levels (v :: qs) =
          bfsLoop g fuel (levels ++ new) (qs ++ keysOf new) := by
        rw [bfsLoop]
        rw [g1, g2]
        rfl
      have hU2 : ∀ n ∈ keysOf (levels ++ new), n ∈ bfsU g root := by
        intro n hn
        rw [keysOf_append] at hn
        rcases List.mem_append.mp hn with hn | hn
        · exact hU n hn
        · obtain ⟨p, hp, rfl⟩ := List.mem_map.mp hn
          obtain ⟨_, hsucc, _⟩ := g4 p hp
          exact List.mem_cons_of_mem _ (successor_mem_targets hsucc)
      rw [hloop]
      refine ih (levels ++ new) (qs ++ keysOf new) ⟨g3, ?_, hU2, ?_, ?_, ?_, ?_⟩ ?_
      · intro n hn
        rw [keysOf_append]
        rcases List.mem_append.mp hn with hn | hn
        · exact List.mem_append_left _ (hq n (List.mem_cons_of_mem _ hn))
        · exact List.mem_append_right _ hn
      · intro n hn hnq c hcsucc
        rw [keysOf_append] at hn
        rcases List.mem_append.mp hn with hn | hn
        · by_cases hnv : n = v
          · subst hnv
            exact g5 c hcsucc
          · have hnqs : n ∉ v :: qs := by
              intro hmem
              rcases List.mem_cons.mp hmem with rfl | h2
              · exact hnv rfl
              · exact hnq (List.mem_append_left _ h2)
            rw [keysOf_append]
            exact List.mem_append_left _ (hcl n hn hnqs c hcsucc)
        · exact absurd (List.mem_append_right qs hn) hnq
      · intro p hp
        rcases List.mem_append.mp hp with hp | hp
        · exact hre p hp
        · obtain ⟨_, hsucc, _⟩ := g4 p hp
          exact ReachableFrom.step (hre (v, dv) (mem_of_alookup hdv)) hsucc
      · intro p hp dd hdd
        rcases List.mem_append.mp hp with hp | hp
        · obtain ⟨w, hw, hws⟩ := hly p hp dd hdd
          exact ⟨w, List.mem_append_left _ hw, hws⟩
        · obtain ⟨hdep, hsucc, _⟩ := g4 p hp
          have hddv : dd = dv := by omega
          subst hddv
          exact ⟨v, List.mem_append_left _ (mem_of_alookup hdv), hsucc⟩
      · obtain ⟨rest, hrest⟩ := hhd
        exact ⟨rest ++ new, by rw [hrest]; rfl⟩
      · have h0 : (keysOf new).length = new.length := by
          show (new.map Prod.fst).length = new.length
          exact List.length_map _ _
        have hlen1 : (keysOf (levels ++ new)).length =
            (keysOf levels).length + new.length := by
          rw [keysOf_append, List.length_append, h0]
        have hlen2 : (keysOf (levels ++ new)).length ≤ (bfsU g root).length :=
          nodup_subset_length_le g3 hU2
        have hlen3 : (qs ++ keysOf new).length = qs.length + new.length := by
          rw [List.length_append, h0]
        have hlen4 : (v :: qs).length = qs.length + 1 := by simp
        omega

theorem bfsLevels_spec (g : DiGraph) (root : String) :
    bfsInv g root (bfsLevels g root) [] := by
  unfold bfsLevels
  refine bfsLoop_spec g root (g.edges.length + 1) [(root, 0)] [root]
    ⟨?_, ?_, ?_, ?_, ?_, ?_, ?_⟩ ?_
  · simp [keysOf]
  · intro n hn
    simpa [keysOf] using hn
  · intro n hn
    simp only [keysOf, List.map_cons, List.map_nil, List.mem_singleton] at hn
    subst hn
    exact List.mem_cons_self _ _
  · intro n hn hnq
    exfalso
    apply hnq
    simp only [keysOf, List.map_cons, List.map_nil, List.mem_singleton] at hn
    simp [hn]
  · intro p hp
    simp only [List.mem_singleton] at hp
    subst hp
    exact ReachableFrom.refl
  · intro p hp dd hdd
    simp only [List.mem_singleton] at hp
    subst hp
    simp at hdd
  · exact ⟨[], rfl⟩
  · have hu : (bfsU g root).length = g.edges.length + 1 := by simp [bfsU]
    simp only [List.length_singleton, keysOf, List.map_cons, List.map_nil]
    omega

theorem bfsLevels_root (g : DiGraph) (root : String) :
    alookup root (bfsLevels g root) = some 0 := by
  obtain ⟨rest, hr⟩ := (bfsLevels_spec g root).2.2.2.2.2.2
  rw [hr, alookup, if_pos rfl]

theorem bfsLevels_isSome_iff {g : DiGraph} {root n : String} :
    (alookup n (bfsLevels g root)).isSome = true ↔ ReachableFrom g root n := by
  constructor
  · intro h
    obtain ⟨d, hd⟩ := Option.isSome_iff_exists.mp h
    exact (bfsLevels_spec g root).2.2.2.2.1 (n, d) (mem_of_alookup hd)
  · intro h
    refine alookup_isSome.mpr ?_
    induction h with
    | refl =>
      obtain ⟨rest, hr⟩ := (bfsLevels_spec g root).2.2.2.2.2.2
      rw [hr]
      exact List.mem_cons_self _ _
    | step hv hsucc ih =>
      exact (bfsLevels_spec g root).2.2.2.1 _ ih (by simp) _ hsucc

theorem bfsLevels_layer {g : DiGraph} {root n : String} {dd : Nat}
    (h : alookup n (bfsLevels g root) = some (dd + 1)) :
    ∃ v, alookup v (bfsLevels g root) = some dd ∧ n ∈ successors g v := by
  obtain ⟨v, hv, hvs⟩ :=
    (bfsLevels_spec g root).2.2.2.2.2.1 (n, dd + 1) (mem_of_alookup h) dd rfl
  exact ⟨v, alookup_of_mem_nodup (bfsLevels_spec g root).1 hv, hvs⟩

theorem rowBlock_keys (ns : List String) (dx y : Rat) :
    (rowBlock ns dx y).map Prod.fst = ns := by
  unfold rowBlock
  exact enumFrom_block_keys (fun i => ((i : Rat) * dx, y)) ns 0

theorem rowBlock_lookup {n : String} {ns : List String} (dx y : Rat) (h : n ∈ ns) :
    alookup n (rowBlock ns dx y) = some ((idxOfS n ns : Rat) * dx, y) := by
  have := enumFrom_block_lookup (fun i => ((i : Rat) * dx, y)) ns 0 h
  simpa using this

theorem rowBlock_lookup_none {n : String} {ns : List String} (dx y : Rat) (h : n ∉ ns) :
    alookup n (rowBlock ns dx y) = none := by
  rw [alookup_eq_none, rowBlock_keys]
  exact h

theorem mem_layerOf_iff {L : List (String × Nat)} {n : String} {d : Nat}
    (hnd : (keysOf L).Nodup) : n ∈ layerOf L d ↔ (n, d) ∈ L := by
  constructor
  · intro h
    unfold layerOf at h
    obtain ⟨p, hp, hpe⟩ := List.mem_map.mp h
    obtain ⟨p1, p2⟩ := p
    have hpf := List.mem_filter.mp hp
    have hp2 : p2 = d := by simpa using hpf.2
    subst hp2
    dsimp only at hpe
    subst hpe
    exact hpf.1
  · intro h
    unfold layerOf
    exact List.mem_map.mpr ⟨(n, d), List.mem_filter.mpr ⟨h, by simp⟩, rfl⟩

theorem hierarchy_layout_lookup (g : DiGraph) (root : String) (w gap loc : Rat)
    {n : String} {d : Nat} (h : alookup n (bfsLevels g root) = some d) :
    alookup n (hierarchy_layout g root w gap loc) =
      some ((idxOfS n (layerOf (bfsLevels g root) d) : Rat)
          * (w / ((layerOf (bfsLevels g root) d).length + 1)),
        -(d : Rat) * gap + loc) := by
  have hnd := (bfsLevels_spec g root).1
  have hmem : (n, d) ∈ bfsLevels g root := mem_of_alookup h
  have hnl : n ∈ layerOf (bfsLevels g root) d := (mem_layerOf_iff hnd).mpr hmem
  have hnotin : ∀ d2, d2 ≠ d → n ∉ layerOf (bfsLevels g root) d2 := by
    intro d2 hne hmem2
    have h2 : (n, d2) ∈ bfsLevels g root := (mem_layerOf_iff hnd).mp hmem2
    have := alookup_of_mem_nodup hnd h2
    rw [h] at this
    exact hne (Option.some.inj this).symm
  have hd : d ∈ firstOccs ((bfsLevels g root).map Prod.snd) :=
    mem_firstOccs.mpr (List.mem_map.mpr ⟨(n, d), hmem, rfl⟩)
  unfold hierarchy_layout
  refine alookup_flatten
    (fun depth => rowBlock (layerOf (bfsLevels g root) depth)
      (w / ((layerOf (bfsLevels g root) depth).length + 1))
      (-(depth : Rat) * gap + loc))
    (firstOccs ((bfsLevels g root).map Prod.snd)) d hd ?_ ?_
  · intro d2 _ hne
    exact rowBlock_lookup_none _ _ (hnotin d2 hne)
  · exact rowBlock_lookup _ _ hnl

theorem hierarchy_layout_isSome_iff (g : DiGraph) (root : String) (w gap loc : Rat)
    {n : String} :
    (alookup n (hierarchy_layout g root w gap loc)).isSome = true ↔
      ReachableFrom g root n := by
  constructor
  · intro h
    have hk := alookup_isSome.mp h
    unfold hierarchy_layout at hk
    obtain ⟨p, hp, rfl⟩ := List.mem_map.mp hk
    obtain ⟨b, hb, hpb⟩ := List.mem_flatten.mp hp
    obtain ⟨d2, _, rfl⟩ := List.mem_map.mp hb
    have hkey : p.1 ∈ layerOf (bfsLevels g root) d2 := by
      rw [← rowBlock_keys (layerOf (bfsLevels g root) d2)
        (w / ((layerOf (bfsLevels g root) d2).length + 1)) (-(d2 : Rat) * gap + loc)]
      exact List.mem_map_of_mem _ hpb
    have hmem := (mem_layerOf_iff (bfsLevels_spec g root).1).mp hkey
    exact (bfsLevels_spec g root).2.2.2.2.1 _ hmem
  · intro h
    obtain ⟨d, hd⟩ := Option.isSome_iff_exists.mp (bfsLevels_isSome_iff.mpr h)
    rw [hierarchy_layout_lookup g root w gap loc hd]
    rfl

/-- C8: for every graph and root, the layout's BFS assigns the root depth
0; the layout contains exactly the nodes reachable from the root along
successor edges; every node at depth `d+1` was discovered from some node
at depth `d`; and the `i`-th node (discovery order) of a depth-`d` layer
of size `k` is placed at `(i * width/(k+1), -d * vertGap)` (with the
`vert_loc` offset at its default 0). -/
theorem c8_hierarchy_layout_spec :
    ∀ (g : DiGraph) (root : String) (width gap : Rat),
      alookup root (bfsLevels g root) = some 0 ∧
      (∀ n, (alookup n (bfsLevels g root)).isSome = true ↔ ReachableFrom g root n) ∧
      (∀ n, (alookup n (hierarchy_layout g root width gap 0)).isSome = true ↔
        ReachableFrom g root n) ∧
      (∀ n dd, alookup n (bfsLevels g root) = some (dd + 1) →
        ∃ v, alookup v (bfsLevels g root) = some dd ∧ n ∈ successors g v) ∧
      (∀ n d, alookup n (bfsLevels g root) = some d →
        alookup n (hierarchy_layout g root width gap 0) =
          some ((idxOfS n (layerOf (bfsLevels g root) d) : Rat)
              * (width / ((layerOf (bfsLevels g root) d).length + 1)),
            -(d : Rat) * gap)) := by
  intro g root width gap
  refine ⟨bfsLevels_root g root, fun n => bfsLevels_isSome_iff,
    fun n => hierarchy_layout_isSome_iff g root width gap 0,
    fun n dd h => bfsLevels_layer h, ?_⟩
  intro n d h
  rw [hierarchy_layout_lookup g root width gap 0 h]
  norm_num

/-- Witness for C8 on a concrete four-node graph: node `"c"` is the
second entry (index 1) of the depth-1 layer of size 2. -/
theorem c8_hierarchy_layout_spec_witness :
    alookup "c"
        (hierarchy_layout ⟨[], [("start", "a"), ("a", "b"), ("start", "c")]⟩ "start" 2 (13/10) 0)
      = some
        ((idxOfS "c"
            (layerOf (bfsLevels ⟨[], [("start", "a"), ("a", "b"), ("start", "c")]⟩ "start") 1)
              : Rat)
          * (2 / ((layerOf
              (bfsLevels ⟨[], [("start", "a"), ("a", "b"), ("start", "c")]⟩ "start") 1).length
                + 1)),
          -((1 : Nat) : Rat) * (13/10)) :=
  (c8_hierarchy_layout_spec ⟨[], [("start", "a"), ("a", "b"), ("start", "c")]⟩ "start" 2
    (13/10)).2.2.2.2 "c" 1 (by decide)
